import Mathlib

/-!
A shallow embedding of `find-dupe-symlinks.c`.

The program walks a directory tree, records every symbolic link together with its
lexically normalised target, and then prints a line for each record whose target
occurs again further down the list.

Conventions of the embedding.

* A C string is the list of its characters before the terminating NUL (`CStr`).
* The singly linked list `struct __symlink *` is a `List Symlink`; the `NULL`
  pointer is the empty list.  A function that returns `NULL` on failure therefore
  returns `[]`, exactly as indistinguishable from "no links" as it is in C.
* The file system is an explicit tree (`Node`, `Dir`, `Entries`) that records what
  `opendir`, `readdir`, `lstat`, `readlink` and `closedir` answer.
* `calloc`, `strdup` and `asprintf` are taken to succeed.
* Of the text written to standard output the embedding keeps what `main` itself
  prints: the usage text, the line `No links found` and the duplicate lines.  The
  diagnostic and verbose lines of the helper functions carry no data and are left out.
-/

set_option linter.unusedVariables false

namespace FindDupeSymlinks

/-- A NUL-terminated C string, without its terminator. -/
abbrev CStr := List Char

/-! ## Data model -/

/-- The record `struct __symlink`; the `next` pointer is the tail of the list that
holds the record. -/
structure Symlink where
  link_path : CStr
  target_path : CStr
deriving DecidableEq

/-- The record `struct __args`; `start_dir` is `NULL` (`none`) until `-d` is seen. -/
structure Args where
  start_dir : Option CStr
  verbose : Bool
deriving DecidableEq

mutual
/-- What `lstat` (and, for a link, `readlink`) answers for one directory entry. -/
inductive Node where
  /-- The call `lstat` fails. -/
  | lstat_fails : Node
  /-- A regular file (`S_ISREG`). -/
  | reg : Node
  /-- A symbolic link (`S_ISLNK`); `none` when `readlink` returns -1. -/
  | lnk (target : Option CStr) : Node
  /-- A directory (`S_ISDIR`). -/
  | dir (d : Dir) : Node
  /-- Any other file type: socket, FIFO, device. -/
  | other : Node
/-- What `opendir` answers for a path. -/
inductive Dir where
  /-- The call `opendir` returns `NULL`. -/
  | unreadable : Dir
  /-- The directory opens and `readdir` walks the given stream. -/
  | listing (es : Entries) : Dir
/-- The stream of answers of successive `readdir` calls, in listing order. -/
inductive Entries where
  /-- The next entry, with its name `d_name`. -/
  | entry (d_name : CStr) (node : Node) (rest : Entries) : Entries
  /-- End of the directory; the flag says whether `closedir` then succeeds. -/
  | eof (closedir_ok : Bool) : Entries
  /-- The call `readdir` fails (returns `NULL` with `errno` set). -/
  | readdir_fails : Entries
end

/-- Modelled from the spec: the platform's maximum path length, the constant of
`limits.h` that sizes the `readlink` buffer; it is not defined in the repository
(4096 on Linux). -/
def PATH_MAX : Nat := 4096

/-! ## `__canonicalize_path` -/

/-- The copying loop of `__canonicalize_path`.  `new_path` is the part of the output
buffer written so far (so `pos = new_path.length`), the second argument is what
`c_ptr` still has to read. -/
def collapse_loop (new_path : CStr) : CStr → CStr
  | [] => new_path
  | c :: cs =>
    if c ≠ '/' then collapse_loop (new_path ++ [c]) cs
    else if new_path.length = 0 then collapse_loop (new_path ++ [c]) cs
    else if new_path.getLast? = some '/' then collapse_loop new_path cs
    else collapse_loop (new_path ++ [c]) cs

/-- The trailing loop of `__canonicalize_path`:
`while (pos != 0 && new_path[pos] == '/') { new_path[pos] = 0; pos--; }`.
Writing NUL at `pos` cuts the string down to its first `pos` characters. -/
def strip_loop (new_path : CStr) : Nat → CStr
  | 0 => new_path
  | pos + 1 =>
    if new_path.get? (pos + 1) = some '/' then strip_loop (new_path.take (pos + 1)) pos
    else new_path

/-- The function `__canonicalize_path` on a string; `none` is the `NULL` return. -/
def canonicalize_path (path : CStr) : Option CStr :=
  if path.length = 0 then none
  else
    let new_path := collapse_loop [] path
    some (strip_loop new_path (new_path.length - 1))

/-- The function `__canonicalize_path` on a pointer that may be `NULL` (`none`): the
guard `!path || strlen(path) == 0` rejects the null pointer before the string is read. -/
def canonicalize_path_ptr (path : Option CStr) : Option CStr :=
  match path with
  | none => none
  | some p => canonicalize_path p

/-! ## `__append_symlinks`, `__symlink_exists` -/

/-- The function `__append_symlinks`: `NULL` when `source` is `NULL`, `source` when
`target` is `NULL`, otherwise `source` hooked behind the last node of `target`. -/
def append_symlinks (target source : List Symlink) : List Symlink :=
  match source with
  | [] => []
  | s :: ss =>
    match target with
    | [] => s :: ss
    | t :: ts => (t :: ts) ++ (s :: ss)

/-- The `while (link_ptr)` loop of `__symlink_exists`. -/
def symlink_exists_loop (target_path : CStr) : List Symlink → Bool
  | [] => false
  | link_ptr :: next =>
    if link_ptr.target_path = target_path then true
    else symlink_exists_loop target_path next

/-- The function `__symlink_exists`. -/
def symlink_exists (links : List Symlink) (target_path : CStr) : Bool :=
  match links with
  | [] => false
  | l :: ls =>
    if target_path.length = 0 then false
    else symlink_exists_loop target_path (l :: ls)

/-! ## `__find_symlinks` -/

/-- The test `strcmp(de->d_name, ".") == 0 || strcmp(de->d_name, "..") == 0`. -/
def is_dot (d_name : CStr) : Bool :=
  decide (d_name = ['.']) || decide (d_name = ['.', '.'])

mutual
/-- The function `__find_symlinks`.  The result `[]` is the `NULL` pointer, which the
C code returns both on an error and for a directory without links. -/
def find_symlinks (dir_path : CStr) (verbose : Bool) (d : Dir) : List Symlink :=
  if dir_path.length = 0 then []
  else
    match d with
    | .unreadable => []
    | .listing es => read_loop dir_path verbose [] es
/-- The `while (1)` loop of `__find_symlinks` with the list `links` built so far. -/
def read_loop (dir_path : CStr) (verbose : Bool) (links : List Symlink) :
    Entries → List Symlink
  | .readdir_fails => []
  | .eof closedir_ok => if closedir_ok then links else []
  | .entry d_name node rest =>
    if is_dot d_name then read_loop dir_path verbose links rest
    else
      match node with
      | .lstat_fails => []
      | .reg => read_loop dir_path verbose links rest
      | .lnk none => []
      | .lnk (some target) =>
        -- readlink copies at most bufsize = PATH_MAX + 1 bytes into the zeroed buffer;
        -- a target that fills it leaves no terminator, which C leaves undefined
        match canonicalize_path (target.take (PATH_MAX + 1)) with
        | none => []
        | some target_path_canonical =>
          read_loop dir_path verbose
            (append_symlinks links [⟨dir_path ++ '/' :: d_name, target_path_canonical⟩]) rest
      | .dir d =>
        match find_symlinks (dir_path ++ '/' :: d_name) verbose d with
        | [] => read_loop dir_path verbose links rest
        | l :: ls => read_loop dir_path verbose (append_symlinks links (l :: ls)) rest
      | .other => []
end

/-! ## `__get_args` and `main` -/

/-- One answer of `getopt(argc, argv, "d:v")` other than -1: the option character it
returns and the value it leaves in `optarg`. -/
structure Getopt where
  opt : Char
  optarg : Option CStr
deriving DecidableEq

/-- How a call of `__get_args` ends. -/
inductive ArgsResult where
  /-- It returns `NULL`. -/
  | null : ArgsResult
  /-- It returns a live `struct __args` with `start_dir` set. -/
  | args (start_dir : CStr) (verbose : Bool) : ArgsResult
  /-- It goes on to dereference `args` after `__destroy_args` has released it. -/
  | use_after_free : ArgsResult
deriving DecidableEq

/-- The `while ((opt = getopt(...)) != -1)` loop of `__get_args` and the check that
follows it.  The `default:` branch calls `__destroy_args(args)` and then only leaves
the `switch`; whatever comes next (another option or the test `!args->start_dir`)
reads the released object. -/
def get_args_loop (args : Args) : List Getopt → ArgsResult
  | [] =>
    match args.start_dir with
    | none => .null
    | some start_dir => .args start_dir args.verbose
  | g :: rest =>
    if g.opt = 'd' then
      match g.optarg with
      | none => .null
      | some optarg =>
        if optarg.length = 0 then .null
        else if args.start_dir.isSome then .null
        else get_args_loop ⟨some optarg, args.verbose⟩ rest
    else if g.opt = 'v' then get_args_loop ⟨args.start_dir, true⟩ rest
    else .use_after_free

/-- The function `__get_args`, on the answers `getopt` gives for the command line. -/
def get_args (opts : List Getopt) : ArgsResult :=
  get_args_loop ⟨none, false⟩ opts

/-- The three arguments of one `Duplicate symlink found: %s and %s both link to %s`
line: `link_ptr->link_path`, `link_ptr->next->link_path`, `link_ptr->target_path`. -/
structure Duplicate where
  link_path : CStr
  next_link_path : CStr
  target_path : CStr
deriving DecidableEq

/-- The loop `while (link_ptr->next)` of `main`.  It is entered with a list that is not
`NULL`, so the first case is never reached from `main`. -/
def duplicate_loop : List Symlink → List Duplicate
  | [] => []
  | [_] => []
  | link_ptr :: next :: rest =>
    (if symlink_exists (next :: rest) link_ptr.target_path
      then [⟨link_ptr.link_path, next.link_path, link_ptr.target_path⟩]
      else []) ++ duplicate_loop (next :: rest)

/-- What `main` writes to standard output. -/
inductive Line where
  /-- The usage text. -/
  | usage : Line
  /-- The line `No links found`. -/
  | no_links_found : Line
  /-- One `Duplicate symlink found` line. -/
  | duplicate (d : Duplicate) : Line
deriving DecidableEq

/-- How a run of the program ends. -/
inductive Run where
  /-- The value `main` returns and the lines it printed. -/
  | exit (code : Nat) (stdout : List Line) : Run
  /-- The run dereferences released memory; C gives it no defined result. -/
  | undefined : Run
deriving DecidableEq

/-- The function `main`.  `opts` are the answers of `getopt`, `fs` tells what the file
system holds at a path.  Falling off the end of `main` returns 0. -/
def main (opts : List Getopt) (fs : CStr → Dir) : Run :=
  match get_args opts with
  | .null => .exit 1 [.usage]
  | .use_after_free => .undefined
  | .args start_dir verbose =>
    match find_symlinks start_dir verbose (fs start_dir) with
    | [] => .exit 1 [.no_links_found]
    | l :: ls => .exit 0 ((duplicate_loop (l :: ls)).map Line.duplicate)

/-! ## Reference definitions, written from the specification -/

/-- Reference for the first half of the normaliser, from the specification: every
maximal run of `/` is replaced by a single `/`.  A `/` directly followed by another
`/` is dropped, so each run keeps one separator. -/
def squeeze : CStr → CStr
  | [] => []
  | [c] => [c]
  | c :: d :: cs =>
    if c = '/' ∧ d = '/' then squeeze (d :: cs) else c :: squeeze (d :: cs)

/-- Reference for the second half of the normaliser, from the specification: the
trailing `/` is removed unless the string is exactly `/`. -/
def drop_trailing_sep (s : CStr) : CStr :=
  if s = ['/'] then s
  else if s.getLast? = some '/' then s.dropLast
  else s

/-- The lexical reference definition of normalisation. -/
def normalize_ref (path : CStr) : CStr :=
  drop_trailing_sep (squeeze path)

/-- No two neighbouring characters are both separators. -/
def NoDoubleSep (s : CStr) : Prop :=
  List.Chain' (fun a b => ¬ (a = '/' ∧ b = '/')) s


/-- What the copying loop still appends, given whether the last character written is
a separator. -/
def collapse_after (prev_sep : Bool) : CStr → CStr
  | [] => []
  | c :: cs =>
    if c = '/' then
      if prev_sep then collapse_after true cs else c :: collapse_after true cs
    else c :: collapse_after false cs

/-- Reference for the reporter, from the specification: the all-pairs scan.  For each
record, one line per later record with the same target, naming both link paths. -/
def all_pairs_report : List Symlink → List Duplicate
  | [] => []
  | r :: rest =>
    ((rest.filter (fun s => decide (s.target_path = r.target_path))).map
      (fun s => (⟨r.link_path, s.link_path, r.target_path⟩ : Duplicate)))
      ++ all_pairs_report rest

/-- Record number `i` of the collection has a later record `j` with the same target. -/
def has_later_duplicate (links : List Symlink) (i : Nat) : Prop :=
  ∃ j, j < links.length ∧ (i < j ∧
    (links[j]?).map Symlink.target_path = (links[i]?).map Symlink.target_path)

instance has_later_duplicate_decidable (links : List Symlink) (i : Nat) :
    Decidable (has_later_duplicate links i) := by
  unfold has_later_duplicate
  infer_instance

/-- The line the loop of `main` prints for record number `i`, if it prints one: the
link path of record `i`, the link path of its immediate successor, and the target of
record `i`. -/
def expected_line (links : List Symlink) (i : Nat) : Option Duplicate :=
  match links[i]?, links[i + 1]? with
  | some r, some s =>
    if has_later_duplicate links i then some ⟨r.link_path, s.link_path, r.target_path⟩
    else none
  | _, _ => none

/-- The first link path and the target of the line for record number `i`, if the
record has a later duplicate. -/
def expected_head (links : List Symlink) (i : Nat) : Option (CStr × CStr) :=
  match links[i]? with
  | some r => if has_later_duplicate links i then some (r.link_path, r.target_path) else none
  | none => none

mutual
/-- Every call the collector makes below this entry succeeds: it is a regular file,
a link whose target is non-empty and fits in `PATH_MAX` bytes, or a directory in
which every call succeeds. -/
def Node.healthy : Node → Bool
  | .lstat_fails => false
  | .reg => true
  | .lnk none => false
  | .lnk (some target) => decide (target ≠ []) && decide (target.length ≤ PATH_MAX)
  | .dir d => d.healthy
  | .other => false
/-- The directory opens, and every call the collector makes in it succeeds. -/
def Dir.healthy : Dir → Bool
  | .unreadable => false
  | .listing es => es.healthy
/-- The listing ends without a `readdir` error, `closedir` succeeds, and every entry
other than `.` and `..` is healthy. -/
def Entries.healthy : Entries → Bool
  | .entry d_name node rest => (is_dot d_name || node.healthy) && rest.healthy
  | .eof closedir_ok => closedir_ok
  | .readdir_fails => false
end

mutual
/-- Every call the collector makes below this entry succeeds; no condition on file
types or on the targets of links. -/
def Node.calls_succeed : Node → Bool
  | .lstat_fails => false
  | .lnk none => false
  | .dir d => d.calls_succeed
  | _ => true
/-- The directory opens and every call made in it succeeds. -/
def Dir.calls_succeed : Dir → Bool
  | .unreadable => false
  | .listing es => es.calls_succeed
/-- No `readdir` error, `closedir` succeeds, and the calls made for the entries other
than `.` and `..` succeed. -/
def Entries.calls_succeed : Entries → Bool
  | .entry d_name node rest => (is_dot d_name || node.calls_succeed) && rest.calls_succeed
  | .eof closedir_ok => closedir_ok
  | .readdir_fails => false
end

mutual
/-- Reference for the collector, from the specification: the records of the symbolic
links at or below an entry whose full path is `full_path`. -/
def Node.symlinks (full_path : CStr) : Node → List Symlink
  | .lnk (some target) => [⟨full_path, normalize_ref target⟩]
  | .dir d => d.symlinks full_path
  | _ => []
/-- Reference for the collector, from the specification: the records of all symbolic
links under a directory, depth first, in listing order. -/
def Dir.symlinks (dir_path : CStr) : Dir → List Symlink
  | .listing es => es.symlinks dir_path
  | .unreadable => []
/-- Reference for the collector, from the specification: the records of one listing;
an entry contributes its records at its own position, `.` and `..` contribute none,
and the link path is the directory path, a `/` and the entry name. -/
def Entries.symlinks (dir_path : CStr) : Entries → List Symlink
  | .entry d_name node rest =>
    (if is_dot d_name then [] else node.symlinks (dir_path ++ '/' :: d_name))
      ++ rest.symlinks dir_path
  | _ => []
end

mutual
/-- The number of symbolic links at or below an entry. -/
def Node.count_symlinks : Node → Nat
  | .lnk _ => 1
  | .dir d => d.count_symlinks
  | _ => 0
/-- The number of symbolic links anywhere under a directory. -/
def Dir.count_symlinks : Dir → Nat
  | .listing es => es.count_symlinks
  | .unreadable => 0
/-- The number of symbolic links in a listing, `.` and `..` left out. -/
def Entries.count_symlinks : Entries → Nat
  | .entry d_name node rest =>
    (if is_dot d_name then 0 else node.count_symlinks) + rest.count_symlinks
  | _ => 0
end

/-! ## Concrete inputs -/

/-- The scenario of the specification, `root/` with `a -> /x/y`, `c -> /z` and
`sub/b -> /x//y/`, listed in the order `a`, `c`, `sub`. -/
def scenario_tree : Dir :=
  .listing
    (.entry "a".toList (.lnk (some "/x/y".toList))
      (.entry "c".toList (.lnk (some "/z".toList))
        (.entry "sub".toList
          (.dir (.listing (.entry "b".toList (.lnk (some "/x//y/".toList)) (.eof true))))
          (.eof true))))

/-- The records of the scenario in the order `a`, `sub/b`, `c`. -/
def scenario_records : List Symlink :=
  [⟨"root/a".toList, "/x/y".toList⟩, ⟨"root/sub/b".toList, "/x/y".toList⟩,
    ⟨"root/c".toList, "/z".toList⟩]

/-- Three links with the same target. -/
def three_same : List Symlink :=
  [⟨"a".toList, "/x".toList⟩, ⟨"b".toList, "/x".toList⟩, ⟨"c".toList, "/x".toList⟩]

/-- A directory `root/` with the link `a -> /x` and a subdirectory `sub/` that cannot
be opened. -/
def unreadable_sub_tree : Dir :=
  .listing
    (.entry "a".toList (.lnk (some "/x".toList))
      (.entry "sub".toList (.dir .unreadable) (.eof true)))

/-- A directory `root/` with the links `a -> /x` and `c -> /x` and between them a
subdirectory `sub/` that holds the link `b -> /x` and a FIFO. -/
def fifo_sub_tree : Dir :=
  .listing
    (.entry "a".toList (.lnk (some "/x".toList))
      (.entry "sub".toList
        (.dir (.listing (.entry "b".toList (.lnk (some "/x".toList))
          (.entry "fifo".toList .other (.eof true)))))
        (.entry "c".toList (.lnk (some "/x".toList)) (.eof true))))

/-- A directory `root/` with the link `a -> /x` and a FIFO. -/
def fifo_root_tree : Dir :=
  .listing
    (.entry "a".toList (.lnk (some "/x".toList))
      (.entry "fifo".toList .other (.eof true)))

/-! ## Lemmas on the normaliser -/

theorem getLast?_concat_char (s : CStr) (c : Char) : (s ++ [c]).getLast? = some c := by
  simp

theorem collapse_loop_eq (cs : CStr) : ∀ acc : CStr,
    collapse_loop acc cs = acc ++ collapse_after (decide (acc.getLast? = some '/')) cs := by
  induction cs with
  | nil => intro acc; simp [collapse_loop, collapse_after]
  | cons c cs ih =>
    intro acc
    by_cases hc : c = '/'
    · subst hc
      by_cases hacc : acc.length = 0
      · have : acc = [] := List.length_eq_zero.mp hacc
        subst this
        simp [collapse_loop, collapse_after, ih]
      · by_cases hl : acc.getLast? = some '/'
        · simp [collapse_loop, collapse_after, ih, hacc, hl]
        · simp [collapse_loop, collapse_after, ih, hacc, hl]
    · simp [collapse_loop, collapse_after, ih, hc]

theorem squeeze_cons (cs : CStr) : ∀ c : Char,
    squeeze (c :: cs) = c :: collapse_after (decide (c = '/')) cs := by
  induction cs with
  | nil => intro c; simp [squeeze, collapse_after]
  | cons d cs ih =>
    intro c
    by_cases hc : c = '/' <;> by_cases hd : d = '/' <;>
      simp [squeeze, collapse_after, ih, hc, hd]

theorem collapse_loop_nil (path : CStr) : collapse_loop [] path = squeeze path := by
  cases path with
  | nil => simp [collapse_loop, squeeze]
  | cons c cs =>
    rw [collapse_loop_eq, squeeze_cons]
    by_cases hc : c = '/' <;> simp [collapse_after, hc]

theorem chain_collapse_after (cs : CStr) : ∀ c : Char,
    List.Chain (fun a b => ¬ (a = '/' ∧ b = '/')) c (collapse_after (decide (c = '/')) cs) := by
  induction cs with
  | nil => intro c; simp [collapse_after]
  | cons d cs ih =>
    intro c
    by_cases hc : c = '/' <;> by_cases hd : d = '/'
    · subst hc; subst hd
      simpa [collapse_after] using ih '/'
    · have := ih d
      simp [collapse_after, hc, hd] at this ⊢
      exact this
    · have := ih d
      simp [collapse_after, hc, hd] at this ⊢
      exact this
    · have := ih d
      simp [collapse_after, hc, hd] at this ⊢
      exact this

theorem noDoubleSep_squeeze (path : CStr) : NoDoubleSep (squeeze path) := by
  cases path with
  | nil => simp [squeeze, NoDoubleSep]
  | cons c cs =>
    rw [squeeze_cons]
    exact chain_collapse_after cs c

theorem squeeze_ne_nil {path : CStr} (h : path ≠ []) : squeeze path ≠ [] := by
  cases path with
  | nil => exact absurd rfl h
  | cons c cs => rw [squeeze_cons]; simp

theorem strip_loop_concat (init : CStr) (x : Char) :
    strip_loop (init ++ [x]) init.length =
      if init = [] then [x]
      else if x = '/' then strip_loop init (init.length - 1)
      else init ++ [x] := by
  cases h : init.length with
  | zero =>
    have : init = [] := List.length_eq_zero.mp h
    subst this
    simp [strip_loop]
  | succ k =>
    have hne : init ≠ [] := by
      intro h0; subst h0; simp at h
    have hget : (init ++ [x])[k + 1]? = some x := by
      rw [← h]; simp
    have htake : (init ++ [x]).take (k + 1) = init := by
      rw [← h]; simp
    rw [strip_loop, List.get?_eq_getElem?, hget, htake]
    by_cases hx : x = '/'
    · simp [hne, hx]
    · simp [hne, hx]

theorem strip_loop_eq {s : CStr} (h : NoDoubleSep s) :
    strip_loop s (s.length - 1) = drop_trailing_sep s := by
  rcases List.eq_nil_or_concat s with rfl | ⟨init, x, rfl⟩
  · simp [strip_loop, drop_trailing_sep]
  · rw [List.concat_eq_append] at h ⊢
    have hlen : (init ++ [x]).length - 1 = init.length := by simp
    rw [hlen, strip_loop_concat]
    rcases List.eq_nil_or_concat init with rfl | ⟨init2, y, rfl⟩
    · by_cases hx : x = '/' <;> simp [drop_trailing_sep, hx]
    · rw [List.concat_eq_append] at h ⊢
      have hlen2 : (init2 ++ [y]).length - 1 = init2.length := by simp
      by_cases hx : x = '/'
      · subst hx
        have hy : y ≠ '/' := by
          intro hy; subst hy
          unfold NoDoubleSep at h
          rw [List.append_assoc, List.chain'_append] at h
          simp at h
        rw [hlen2, strip_loop_concat]
        have hne : init2 ++ [y, '/'] ≠ ['/'] := by
          intro hh
          have := congrArg List.length hh
          simp at this
        by_cases hi : init2 = []
        · subst hi; simp [drop_trailing_sep, hy]
        · simp [drop_trailing_sep, hy, hi, hne]
      · simp [drop_trailing_sep, hx]

theorem canonicalize_path_eq {path : CStr} (h : path ≠ []) :
    canonicalize_path path = some (normalize_ref path) := by
  have hl : path.length ≠ 0 := by
    intro h0; exact h (List.length_eq_zero.mp h0)
  simp only [canonicalize_path, hl, if_false, collapse_loop_nil, normalize_ref]
  rw [strip_loop_eq (noDoubleSep_squeeze path)]

theorem filter_collapse_after (cs : CStr) : ∀ b : Bool,
    (collapse_after b cs).filter (fun c => !decide (c = '/')) =
      cs.filter (fun c => !decide (c = '/')) := by
  induction cs with
  | nil => intro b; simp [collapse_after]
  | cons d cs ih =>
    intro b
    by_cases hd : d = '/'
    · cases b <;> simp [collapse_after, hd, ih]
    · simp [collapse_after, hd, ih]

theorem filter_squeeze (path : CStr) :
    (squeeze path).filter (fun c => !decide (c = '/')) =
      path.filter (fun c => !decide (c = '/')) := by
  cases path with
  | nil => simp [squeeze]
  | cons c cs =>
    rw [squeeze_cons]
    by_cases hc : c = '/' <;> simp [hc, filter_collapse_after]

theorem filter_drop_trailing_sep (s : CStr) :
    (drop_trailing_sep s).filter (fun c => !decide (c = '/')) =
      s.filter (fun c => !decide (c = '/')) := by
  unfold drop_trailing_sep
  split
  · rfl
  · split
    · rename_i hlast
      rcases List.eq_nil_or_concat s with rfl | ⟨init, x, rfl⟩
      · simp
      · rw [List.concat_eq_append] at hlast ⊢
        simp at hlast
        subst hlast
        simp
    · rfl

theorem noDoubleSep_drop_trailing_sep {s : CStr} (h : NoDoubleSep s) :
    NoDoubleSep (drop_trailing_sep s) := by
  unfold drop_trailing_sep
  split
  · exact h
  · split
    · exact List.Chain'.prefix h ( List.dropLast_prefix s)
    · exact h

theorem getLast?_drop_trailing_sep {s : CStr} (h : NoDoubleSep s)
    (hl : (drop_trailing_sep s).getLast? = some '/') : drop_trailing_sep s = ['/'] := by
  unfold drop_trailing_sep at hl ⊢
  by_cases h1 : s = ['/']
  · simp [h1]
  · simp only [h1, if_false] at hl ⊢
    by_cases h2 : s.getLast? = some '/'
    · simp only [h2, if_true] at hl ⊢
      exfalso
      rcases List.eq_nil_or_concat s with rfl | ⟨init, x, rfl⟩
      · simp at h2
      · rw [List.concat_eq_append] at h h2 hl h1
        simp at h2
        subst h2
        simp at hl
        rcases List.eq_nil_or_concat init with rfl | ⟨init2, y, rfl⟩
        · simp at hl
        · rw [List.concat_eq_append] at h hl
          simp at hl
          subst hl
          unfold NoDoubleSep at h
          rw [List.append_assoc, List.chain'_append] at h
          simp at h
    · simp only [h2, if_false] at hl

theorem drop_trailing_sep_ne_nil {s : CStr} (h : s ≠ []) : drop_trailing_sep s ≠ [] := by
  unfold drop_trailing_sep
  by_cases h1 : s = ['/']
  · simp [h1]
  · simp only [h1, if_false]
    split
    · intro h0
      rcases List.eq_nil_or_concat s with rfl | ⟨init, x, rfl⟩
      · exact h rfl
      · rename_i hlast
        rw [List.concat_eq_append] at h0 hlast h1
        simp_all
    · exact h

theorem squeeze_all_sep (n : Nat) : squeeze (List.replicate (n + 1) '/') = ['/'] := by
  induction n with
  | zero => simp [squeeze]
  | succ k ih =>
    rw [List.replicate_succ, List.replicate_succ]
    rw [List.replicate_succ] at ih
    simp [squeeze, ih]

theorem squeeze_of_noDoubleSep (s : CStr) (h : NoDoubleSep s) : squeeze s = s := by
  induction s with
  | nil => simp [squeeze]
  | cons c cs ih =>
    cases cs with
    | nil => simp [squeeze]
    | cons d cs =>
      unfold NoDoubleSep at h ih
      rw [List.chain'_cons] at h
      have := ih h.2
      simp only [squeeze]
      rw [if_neg h.1, this]

theorem normalize_ref_fixed (path : CStr) : normalize_ref (normalize_ref path) = normalize_ref path := by
  have hnd : NoDoubleSep (normalize_ref path) :=
    noDoubleSep_drop_trailing_sep (noDoubleSep_squeeze path)
  have hlast := getLast?_drop_trailing_sep (noDoubleSep_squeeze path)
  show drop_trailing_sep (squeeze (normalize_ref path)) = normalize_ref path
  rw [squeeze_of_noDoubleSep _ hnd]
  show drop_trailing_sep (drop_trailing_sep (squeeze path)) = drop_trailing_sep (squeeze path)
  generalize hq : drop_trailing_sep (squeeze path) = q at hlast
  unfold drop_trailing_sep
  by_cases h1 : q = ['/']
  · simp [h1]
  · have h2 : ¬ q.getLast? = some '/' := fun hh => h1 (hlast hh)
    simp [h1, h2]

theorem normalize_ref_ne_nil {path : CStr} (h : path ≠ []) : normalize_ref path ≠ [] :=
  drop_trailing_sep_ne_nil (squeeze_ne_nil h)

/-! ## Lemmas on the duplicate loop -/

theorem symlink_exists_loop_iff (t : CStr) (links : List Symlink) :
    symlink_exists_loop t links = true ↔ ∃ s ∈ links, s.target_path = t := by
  induction links with
  | nil => simp [symlink_exists_loop]
  | cons l ls ih =>
    by_cases h : l.target_path = t
    · simp [symlink_exists_loop, h]
    · simp [symlink_exists_loop, h, ih]

theorem symlink_exists_iff (links : List Symlink) (t : CStr) (ht : t ≠ []) :
    symlink_exists links t = true ↔ ∃ s ∈ links, s.target_path = t := by
  cases links with
  | nil => simp [symlink_exists]
  | cons l ls =>
    have : t.length ≠ 0 := fun h0 => ht (List.length_eq_zero.mp h0)
    simp only [symlink_exists, this, if_false]
    exact symlink_exists_loop_iff t (l :: ls)

theorem has_later_duplicate_zero (r : Symlink) (rest : List Symlink) :
    has_later_duplicate (r :: rest) 0 ↔ ∃ s ∈ rest, s.target_path = r.target_path := by
  constructor
  · rintro ⟨j, hj, hpos, heq⟩
    obtain ⟨k, rfl⟩ : ∃ k, j = k + 1 := ⟨j - 1, by omega⟩
    simp only [List.length_cons, Nat.add_lt_add_iff_right] at hj
    simp only [List.getElem?_cons_succ, List.getElem?_cons_zero, Option.map_some'] at heq
    rw [List.getElem?_eq_getElem hj] at heq
    simp only [Option.map_some', Option.some.injEq] at heq
    exact ⟨rest[k], List.getElem_mem _, heq⟩
  · rintro ⟨s, hs, heq⟩
    obtain ⟨k, hk, rfl⟩ := List.getElem_of_mem hs
    refine ⟨k + 1, by simp [hk], by omega, ?_⟩
    simp [List.getElem?_eq_getElem hk, heq]

theorem has_later_duplicate_succ (r : Symlink) (rest : List Symlink) (i : Nat) :
    has_later_duplicate (r :: rest) (i + 1) ↔ has_later_duplicate rest i := by
  constructor
  · rintro ⟨j, hj, hpos, heq⟩
    obtain ⟨k, rfl⟩ : ∃ k, j = k + 1 := ⟨j - 1, by omega⟩
    simp only [List.length_cons, Nat.add_lt_add_iff_right] at hj
    simp only [List.getElem?_cons_succ] at heq
    exact ⟨k, hj, by omega, heq⟩
  · rintro ⟨j, hj, hpos, heq⟩
    refine ⟨j + 1, by simp [hj], by omega, ?_⟩
    simpa only [List.getElem?_cons_succ] using heq

theorem duplicate_loop_cons (r : Symlink) (rest : List Symlink) (hr : r.target_path ≠ []) :
    duplicate_loop (r :: rest) = (expected_line (r :: rest) 0).toList ++ duplicate_loop rest := by
  cases rest with
  | nil => simp [duplicate_loop, expected_line]
  | cons n rest =>
    have hex := symlink_exists_iff (n :: rest) r.target_path hr
    have hz := has_later_duplicate_zero r (n :: rest)
    by_cases hd : has_later_duplicate (r :: n :: rest) 0
    · have : symlink_exists (n :: rest) r.target_path = true := hex.mpr (hz.mp hd)
      simp [duplicate_loop, expected_line, hd, this]
    · have : ¬ symlink_exists (n :: rest) r.target_path = true := fun h => hd (hz.mpr (hex.mp h))
      simp [duplicate_loop, expected_line, hd, this]

theorem expected_line_succ (r : Symlink) (rest : List Symlink) (i : Nat) :
    expected_line (r :: rest) (i + 1) = expected_line rest i := by
  unfold expected_line
  simp only [List.getElem?_cons_succ]
  by_cases hd : has_later_duplicate rest i
  · have := (has_later_duplicate_succ r rest i).mpr hd
    simp [hd, this]
  · have : ¬ has_later_duplicate (r :: rest) (i + 1) :=
      fun h => hd ((has_later_duplicate_succ r rest i).mp h)
    simp [hd, this]

theorem expected_head_succ (r : Symlink) (rest : List Symlink) (i : Nat) :
    expected_head (r :: rest) (i + 1) = expected_head rest i := by
  unfold expected_head
  simp only [List.getElem?_cons_succ]
  by_cases hd : has_later_duplicate rest i
  · have := (has_later_duplicate_succ r rest i).mpr hd
    simp [hd, this]
  · have : ¬ has_later_duplicate (r :: rest) (i + 1) :=
      fun h => hd ((has_later_duplicate_succ r rest i).mp h)
    simp [hd, this]

theorem duplicate_loop_eq_filterMap (links : List Symlink)
    (h : ∀ r ∈ links, r.target_path ≠ []) :
    duplicate_loop links = (List.range (links.length - 1)).filterMap (expected_line links) := by
  induction links with
  | nil => simp [duplicate_loop]
  | cons r rest ih =>
    have hr : r.target_path ≠ [] := h r (List.mem_cons_self _ _)
    have ih2 := ih (fun s hs => h s (List.mem_cons_of_mem _ hs))
    rw [duplicate_loop_cons r rest hr, ih2]
    cases rest with
    | nil => simp [expected_line]
    | cons n rest =>
      have hlen : (r :: n :: rest).length - 1 = ((n :: rest).length - 1) + 1 := by simp
      rw [hlen, List.range_succ_eq_map, List.filterMap_cons, List.filterMap_map]
      have hfun : expected_line (r :: n :: rest) ∘ Nat.succ = expected_line (n :: rest) := by
        funext i
        exact expected_line_succ r (n :: rest) i
      rw [hfun]
      cases expected_line (r :: n :: rest) 0 <;> simp

/-! ## Lemmas on the collector -/

/-- Induction over a directory tree: a property of directories and a property of
listings that are proved together. -/
theorem tree_induction (P : Dir → Prop) (Q : Entries → Prop)
    (h_unreadable : P .unreadable)
    (h_listing : ∀ es, Q es → P (.listing es))
    (h_entry : ∀ d_name node rest, (∀ d, node = .dir d → P d) → Q rest →
      Q (.entry d_name node rest))
    (h_eof : ∀ ok, Q (.eof ok))
    (h_fails : Q .readdir_fails) : (∀ d, P d) ∧ (∀ es, Q es) := by
  constructor
  · intro d
    exact @Dir.rec (fun n => ∀ d, n = .dir d → P d) P Q
      (fun d h => by cases h) (fun d h => by cases h) (fun t d h => by cases h)
      (fun d ih d2 h => by cases h; exact ih) (fun d h => by cases h)
      h_unreadable h_listing h_entry h_eof h_fails d
  · intro es
    exact @Entries.rec (fun n => ∀ d, n = .dir d → P d) P Q
      (fun d h => by cases h) (fun d h => by cases h) (fun t d h => by cases h)
      (fun d ih d2 h => by cases h; exact ih) (fun d h => by cases h)
      h_unreadable h_listing h_entry h_eof h_fails es

theorem append_symlinks_cons (links : List Symlink) (s : Symlink) (ss : List Symlink) :
    append_symlinks links (s :: ss) = links ++ s :: ss := by
  cases links <;> simp [append_symlinks]

theorem canonicalize_readlink {target : CStr} (h1 : target ≠ [])
    (h2 : target.length ≤ PATH_MAX) :
    canonicalize_path (target.take (PATH_MAX + 1)) = some (normalize_ref target) := by
  have : target.take (PATH_MAX + 1) = target := List.take_of_length_le (by omega)
  rw [this, canonicalize_path_eq h1]

theorem read_loop_dot (dir_path : CStr) (verbose : Bool) (links : List Symlink)
    (d_name : CStr) (node : Node) (rest : Entries) (h : is_dot d_name = true) :
    read_loop dir_path verbose links (.entry d_name node rest) =
      read_loop dir_path verbose links rest := by
  rw [read_loop.eq_def]
  exact if_pos h

theorem read_loop_not_dot (dir_path : CStr) (verbose : Bool) (links : List Symlink)
    (d_name : CStr) (node : Node) (rest : Entries) (h : ¬ is_dot d_name = true) :
    read_loop dir_path verbose links (.entry d_name node rest) =
      match node with
      | .lstat_fails => []
      | .reg => read_loop dir_path verbose links rest
      | .lnk none => []
      | .lnk (some target) =>
        match canonicalize_path (target.take (PATH_MAX + 1)) with
        | none => []
        | some target_path_canonical =>
          read_loop dir_path verbose
            (append_symlinks links [⟨dir_path ++ '/' :: d_name, target_path_canonical⟩]) rest
      | .dir d =>
        match find_symlinks (dir_path ++ '/' :: d_name) verbose d with
        | [] => read_loop dir_path verbose links rest
        | l :: ls => read_loop dir_path verbose (append_symlinks links (l :: ls)) rest
      | .other => [] := by
  rw [read_loop.eq_def]
  exact if_neg h

theorem collector_healthy :
    (∀ d : Dir, ∀ (dir_path : CStr) (verbose : Bool), dir_path ≠ [] → d.healthy = true →
      find_symlinks dir_path verbose d = d.symlinks dir_path) ∧
    (∀ es : Entries, ∀ (dir_path : CStr) (verbose : Bool) (links : List Symlink),
      dir_path ≠ [] → es.healthy = true →
      read_loop dir_path verbose links es = links ++ es.symlinks dir_path) := by
  apply tree_induction
  · intro dir_path verbose _ h
    simp [Dir.healthy] at h
  · intro es ih dir_path verbose hp h
    have hl : dir_path.length ≠ 0 := fun h0 => hp (List.length_eq_zero.mp h0)
    have := ih dir_path verbose [] hp (by simpa [Dir.healthy] using h)
    rw [find_symlinks, if_neg hl]
    simpa [Dir.symlinks] using this
  · intro d_name node rest ihn ihr dir_path verbose links hp h
    simp only [Entries.healthy, Bool.and_eq_true, Bool.or_eq_true] at h
    by_cases hdot : is_dot d_name = true
    · rw [read_loop_dot _ _ _ _ _ _ hdot, Entries.symlinks, if_pos hdot, List.nil_append]
      exact ihr dir_path verbose links hp h.2
    · have hn : node.healthy = true := h.1.resolve_left hdot
      rw [read_loop_not_dot _ _ _ _ _ _ hdot, Entries.symlinks, if_neg hdot]
      cases node with
      | lstat_fails => simp [Node.healthy] at hn
      | other => simp [Node.healthy] at hn
      | reg =>
        simp only [Node.symlinks, List.nil_append]
        exact ihr dir_path verbose links hp h.2
      | lnk t =>
        cases t with
        | none => simp [Node.healthy] at hn
        | some target =>
          simp only [Node.healthy, Bool.and_eq_true, decide_eq_true_eq] at hn
          simp only [canonicalize_readlink hn.1 hn.2, append_symlinks_cons, Node.symlinks]
          rw [ihr dir_path verbose _ hp h.2, List.append_assoc]
      | dir d =>
        have hsub := ihn d rfl (dir_path ++ '/' :: d_name) verbose (by simp)
          (by simpa [Node.healthy] using hn)
        simp only [Node.symlinks]
        rw [hsub]
        cases hds : d.symlinks (dir_path ++ '/' :: d_name) with
        | nil =>
          simp only [List.nil_append]
          exact ihr dir_path verbose links hp h.2
        | cons l ls =>
          simp only [append_symlinks_cons]
          rw [ihr dir_path verbose _ hp h.2, List.append_assoc]
  · intro ok dir_path verbose links _ h
    simp only [Entries.healthy] at h
    simp [read_loop, h, Entries.symlinks]
  · intro dir_path verbose links _ h
    simp [Entries.healthy] at h

theorem symlinks_length :
    (∀ d : Dir, ∀ dir_path : CStr, d.healthy = true →
      (d.symlinks dir_path).length = d.count_symlinks) ∧
    (∀ es : Entries, ∀ dir_path : CStr, es.healthy = true →
      (es.symlinks dir_path).length = es.count_symlinks) := by
  apply tree_induction
  · intro dir_path _
    simp [Dir.symlinks, Dir.count_symlinks]
  · intro es ih dir_path h
    simpa [Dir.symlinks, Dir.count_symlinks] using ih dir_path (by simpa [Dir.healthy] using h)
  · intro d_name node rest ihn ihr dir_path h
    simp only [Entries.healthy, Bool.and_eq_true, Bool.or_eq_true] at h
    simp only [Entries.symlinks, Entries.count_symlinks, List.length_append, ihr dir_path h.2]
    by_cases hdot : is_dot d_name = true
    · rw [if_pos hdot, if_pos hdot]; simp
    · have hn : node.healthy = true := h.1.resolve_left hdot
      rw [if_neg hdot, if_neg hdot]
      cases node with
      | lstat_fails => simp [Node.healthy] at hn
      | other => simp [Node.healthy] at hn
      | reg => simp [Node.symlinks, Node.count_symlinks]
      | lnk t =>
        cases t with
        | none => simp [Node.healthy] at hn
        | some target => simp [Node.symlinks, Node.count_symlinks]
      | dir d =>
        have := ihn d rfl (dir_path ++ '/' :: d_name) (by simpa [Node.healthy] using hn)
        simp [Node.symlinks, Node.count_symlinks, this]
  · intro ok dir_path _
    simp [Entries.symlinks, Entries.count_symlinks]
  · intro dir_path _
    simp [Entries.symlinks, Entries.count_symlinks]

/-! ## The claims on the normaliser -/

/-- C5.  Normalisation is idempotent: applying `__canonicalize_path` to its own result
gives that result again, for every string (for the empty string both sides fail); and
for every non-empty path the function succeeds with a non-empty string that it maps to
itself. -/
theorem canonicalize_path_idempotent (P : CStr) :
    (canonicalize_path P).bind canonicalize_path = canonicalize_path P ∧
    (P = [] → canonicalize_path P = none) ∧
    (P ≠ [] → ∃ Q, canonicalize_path P = some Q ∧ Q ≠ [] ∧ canonicalize_path Q = some Q) := by
  have hne : P ≠ [] →
      ∃ Q, canonicalize_path P = some Q ∧ Q ≠ [] ∧ canonicalize_path Q = some Q := by
    intro hP
    refine ⟨normalize_ref P, canonicalize_path_eq hP, normalize_ref_ne_nil hP, ?_⟩
    rw [canonicalize_path_eq (normalize_ref_ne_nil hP), normalize_ref_fixed]
  refine ⟨?_, ?_, hne⟩
  · by_cases hP : P = []
    · subst hP; simp [canonicalize_path]
    · obtain ⟨Q, h1, _, h2⟩ := hne hP
      rw [h1, Option.some_bind, h2]
  · intro hP; subst hP; simp [canonicalize_path]

/-- C5 (witness): `/x//y/` normalises to `/x/y`, which normalises to itself. -/
theorem canonicalize_path_idempotent_witness :
    "/x//y/".toList ≠ [] ∧
    canonicalize_path "/x//y/".toList = some "/x/y".toList ∧
    canonicalize_path "/x/y".toList = some "/x/y".toList ∧
    ∃ Q, canonicalize_path "/x//y/".toList = some Q ∧ Q ≠ [] ∧
      canonicalize_path Q = some Q :=
  ⟨by decide, by decide, by decide,
    (canonicalize_path_idempotent "/x//y/".toList).2.2 (by decide)⟩

/-- C6.  On a non-empty path `__canonicalize_path` returns the lexical reference
`normalize_ref`: every maximal run of `/` replaced by one `/`, then the trailing `/`
removed unless the string is exactly `/`.  The characters other than `/` are kept in
order, the result has no two `/` in a row, it ends in `/` only when it is `/`, and a
path made of separators only gives `/`. -/
theorem canonicalize_path_eq_reference (path : CStr) (h : path ≠ []) :
    ∃ out, canonicalize_path path = some out ∧ out = normalize_ref path ∧
      out.filter (fun c => !decide (c = '/')) = path.filter (fun c => !decide (c = '/')) ∧
      ¬ ['/', '/'] <:+: out ∧
      (out.getLast? = some '/' → out = ['/']) ∧
      ((∀ c ∈ path, c = '/') → out = ['/']) := by
  have hnd : NoDoubleSep (normalize_ref path) :=
    noDoubleSep_drop_trailing_sep (noDoubleSep_squeeze path)
  refine ⟨normalize_ref path, canonicalize_path_eq h, rfl, ?_, ?_, ?_, ?_⟩
  · show (drop_trailing_sep (squeeze path)).filter _ = _
    rw [filter_drop_trailing_sep, filter_squeeze]
  · intro hin
    have := List.Chain'.infix hnd hin
    simp at this
  · exact getLast?_drop_trailing_sep (noDoubleSep_squeeze path)
  · intro hall
    have hrep : path = List.replicate path.length '/' := List.eq_replicate_of_mem hall
    obtain ⟨n, hn⟩ : ∃ n, path.length = n + 1 := by
      cases path with
      | nil => exact absurd rfl h
      | cons c cs => exact ⟨cs.length, rfl⟩
    rw [hn] at hrep
    show drop_trailing_sep (squeeze path) = ['/']
    rw [hrep, squeeze_all_sep]
    simp [drop_trailing_sep]

/-- C6 (witness): the examples of the specification, `a//b///c`, `/a/b/`, `/` and a
run of separators. -/
theorem canonicalize_path_eq_reference_witness :
    canonicalize_path "a//b///c".toList = some "a/b/c".toList ∧
    canonicalize_path "/a/b/".toList = some "/a/b".toList ∧
    canonicalize_path "/".toList = some "/".toList ∧
    canonicalize_path "////".toList = some "/".toList ∧
    "a//b///c".toList ≠ [] ∧
    ∃ out, canonicalize_path "a//b///c".toList = some out ∧
      out = normalize_ref "a//b///c".toList ∧
      out.filter (fun c => !decide (c = '/')) =
        "a//b///c".toList.filter (fun c => !decide (c = '/')) ∧
      ¬ ['/', '/'] <:+: out ∧
      (out.getLast? = some '/' → out = ['/']) ∧
      ((∀ c ∈ "a//b///c".toList, c = '/') → out = ['/']) :=
  ⟨by decide, by decide, by decide, by decide, by decide,
    canonicalize_path_eq_reference "a//b///c".toList (by decide)⟩

/-- C7.  The function `__canonicalize_path` returns `NULL` exactly when its argument is
the null pointer or the empty path; every non-empty path yields a string. -/
theorem canonicalize_path_none_iff (path : Option CStr) :
    (canonicalize_path_ptr path = none ↔ path = none ∨ path = some []) ∧
    (canonicalize_path_ptr path).isSome = decide (path ≠ none ∧ path ≠ some []) := by
  cases path with
  | none => simp [canonicalize_path_ptr]
  | some p =>
    by_cases h : p = []
    · subst h; simp [canonicalize_path_ptr, canonicalize_path]
    · simp [canonicalize_path_ptr, canonicalize_path_eq h, h]

theorem expected_line_zero_eq_none (r : Symlink) (rest : List Symlink) :
    expected_line (r :: rest) 0 = none ↔ r.target_path ∉ rest.map Symlink.target_path := by
  have hz := has_later_duplicate_zero r rest
  have hmem : r.target_path ∈ rest.map Symlink.target_path ↔
      ∃ s ∈ rest, s.target_path = r.target_path := by simp
  cases rest with
  | nil => simp [expected_line]
  | cons n rest =>
    by_cases hd : has_later_duplicate (r :: n :: rest) 0
    · have := hmem.mpr (hz.mp hd)
      have e : expected_line (r :: n :: rest) 0 =
          some ⟨r.link_path, n.link_path, r.target_path⟩ := by
        simp [expected_line, hd]
      rw [e]
      exact ⟨fun hh => (by cases hh), fun hh => absurd this hh⟩
    · have : r.target_path ∉ (n :: rest).map Symlink.target_path :=
        fun hm => hd (hz.mpr (hmem.mp hm))
      have e : expected_line (r :: n :: rest) 0 = none := by
        simp [expected_line, hd]
      rw [e]
      exact ⟨fun _ => this, fun _ => rfl⟩

theorem duplicate_loop_eq_nil_iff (links : List Symlink)
    (h : ∀ r ∈ links, r.target_path ≠ []) :
    duplicate_loop links = [] ↔ (links.map Symlink.target_path).Nodup := by
  induction links with
  | nil => simp [duplicate_loop]
  | cons r rest ih =>
    have hr : r.target_path ≠ [] := h r (List.mem_cons_self _ _)
    have ih2 := ih (fun s hs => h s (List.mem_cons_of_mem _ hs))
    rw [duplicate_loop_cons r rest hr, List.map_cons, List.nodup_cons, List.append_eq_nil, ih2,
      ← expected_line_zero_eq_none]
    cases expected_line (r :: rest) 0 <;> simp

theorem expected_head_zero (r : Symlink) (rest : List Symlink) :
    (expected_line (r :: rest) 0).map (fun d => (d.link_path, d.target_path)) =
      expected_head (r :: rest) 0 := by
  cases rest with
  | nil =>
    have : ¬ has_later_duplicate [r] 0 := by
      rw [has_later_duplicate_zero]; simp
    simp [expected_line, expected_head, this]
  | cons n rest =>
    by_cases hd : has_later_duplicate (r :: n :: rest) 0 <;>
      simp [expected_line, expected_head, hd]

theorem duplicate_loop_heads (links : List Symlink)
    (h : ∀ r ∈ links, r.target_path ≠ []) :
    (duplicate_loop links).map (fun d => (d.link_path, d.target_path)) =
      (List.range links.length).filterMap (expected_head links) := by
  induction links with
  | nil => simp [duplicate_loop]
  | cons r rest ih =>
    have hr : r.target_path ≠ [] := h r (List.mem_cons_self _ _)
    have ih2 := ih (fun s hs => h s (List.mem_cons_of_mem _ hs))
    rw [duplicate_loop_cons r rest hr, List.map_append, ih2, List.length_cons,
      List.range_succ_eq_map, List.filterMap_cons, List.filterMap_map]
    have hfun : expected_head (r :: rest) ∘ Nat.succ = expected_head rest := by
      funext i
      exact expected_head_succ r rest i
    rw [hfun, ← expected_head_zero]
    cases expected_line (r :: rest) 0 <;> simp

/-! ## The claims on the duplicate report -/

/-- C1 (evaluation at the failing input).  In the scenario of the specification, listed
in the order `a`, `c`, `sub`, the collector returns the records of `root/a`, `root/c`
and `root/sub/b`, whose targets are `/x/y`, `/z` and `/x/y`; the loop of `main` then
prints one line, and that line names `root/a` together with `root/c`, two links whose
targets differ. -/
theorem duplicate_line_names_successor :
    find_symlinks "root".toList false scenario_tree =
      [⟨"root/a".toList, "/x/y".toList⟩, ⟨"root/c".toList, "/z".toList⟩,
        ⟨"root/sub/b".toList, "/x/y".toList⟩] ∧
    duplicate_loop (find_symlinks "root".toList false scenario_tree) =
      [⟨"root/a".toList, "root/c".toList, "/x/y".toList⟩] ∧
    main [⟨'d', some "root".toList⟩] (fun _ => scenario_tree) =
      .exit 0 [.duplicate ⟨"root/a".toList, "root/c".toList, "/x/y".toList⟩] := by
  decide

/-- C2 (counterexample).  For three links `a`, `b`, `c` with the same target the
all-pairs scan of the specification has the line for the pair `a`, `c`; the loop of
`main` prints only the lines for `a` and for `b`, and no line names `a` and `c`
together, in either direction. -/
theorem all_pairs_not_reported :
    (⟨"a".toList, "c".toList, "/x".toList⟩ : Duplicate) ∈ all_pairs_report three_same ∧
    duplicate_loop three_same =
      [⟨"a".toList, "b".toList, "/x".toList⟩, ⟨"b".toList, "c".toList, "/x".toList⟩] ∧
    (duplicate_loop three_same).count ⟨"a".toList, "c".toList, "/x".toList⟩ = 0 ∧
    (duplicate_loop three_same).count ⟨"c".toList, "a".toList, "/x".toList⟩ = 0 := by
  decide

/-- C2 (amended).  For a collection whose targets are non-empty, the loop prints one
line per record that has a later record with the same target, and none for the other
records: the first link paths and targets of the printed lines are, in order, those of
the records with a later duplicate.  So whenever records `i < j` share a target, a line
with the link path of record `i` and the shared target is printed. -/
theorem duplicate_loop_one_line_per_record (links : List Symlink)
    (h : ∀ r ∈ links, r.target_path ≠ []) :
    (duplicate_loop links).map (fun d => (d.link_path, d.target_path)) =
      (List.range links.length).filterMap (expected_head links) ∧
    ∀ (i j : Nat) (r s : Symlink), i < j → links[i]? = some r → links[j]? = some s →
      r.target_path = s.target_path →
      ∃ d ∈ duplicate_loop links, d.link_path = r.link_path ∧ d.target_path = r.target_path := by
  refine ⟨duplicate_loop_heads links h, ?_⟩
  intro i j r s hij hi hj heq
  have hjl : j < links.length := by
    rcases Nat.lt_or_ge j links.length with hlt | hge
    · exact hlt
    · rw [List.getElem?_eq_none hge] at hj; cases hj
  have hd : has_later_duplicate links i := ⟨j, hjl, hij, by rw [hi, hj]; simp [heq]⟩
  have hmem : (r.link_path, r.target_path) ∈
      (List.range links.length).filterMap (expected_head links) := by
    rw [List.mem_filterMap]
    exact ⟨i, List.mem_range.mpr (by omega), by simp [expected_head, hi, hd]⟩
  rw [← duplicate_loop_heads links h, List.mem_map] at hmem
  obtain ⟨d, hdm, hdeq⟩ := hmem
  simp only [Prod.mk.injEq] at hdeq
  exact ⟨d, hdm, hdeq.1, hdeq.2⟩

/-- C2 (witness): the amended statement at three links with the same target. -/
theorem duplicate_loop_one_line_per_record_witness :
    (∀ r ∈ three_same, r.target_path ≠ []) ∧
    (duplicate_loop three_same).map (fun d => (d.link_path, d.target_path)) =
      (List.range three_same.length).filterMap (expected_head three_same) :=
  ⟨by decide, (duplicate_loop_one_line_per_record three_same (by decide)).1⟩

/-- C10.  For a non-empty collection whose targets are non-empty, the loop of `main`
goes through the positions 0 to n-2 in order and prints for position `i` the line
`expected_line links i`: a line exactly when a later record has the target of record
`i`, naming the link path of record `i`, the link path of record `i+1` and the target
of record `i`.  The report has at most n-1 lines and is empty exactly when the targets
are pairwise distinct. -/
theorem duplicate_loop_shape (links : List Symlink) (hne : links ≠ [])
    (h : ∀ r ∈ links, r.target_path ≠ []) :
    duplicate_loop links = (List.range (links.length - 1)).filterMap (expected_line links) ∧
    (∀ i : Nat, (∃ d, expected_line links i = some d) ↔
      (i + 1 < links.length ∧ has_later_duplicate links i)) ∧
    (∀ (i : Nat) (d : Duplicate), expected_line links i = some d →
      ∃ r s, links[i]? = some r ∧ links[i + 1]? = some s ∧
        d = ⟨r.link_path, s.link_path, r.target_path⟩) ∧
    (duplicate_loop links).length ≤ links.length - 1 ∧
    (duplicate_loop links = [] ↔ (links.map Symlink.target_path).Nodup) := by
  refine ⟨duplicate_loop_eq_filterMap links h, ?_, ?_, ?_, duplicate_loop_eq_nil_iff links h⟩
  · intro i
    unfold expected_line
    by_cases hi : i + 1 < links.length
    · have h0 : i < links.length := by omega
      by_cases hd : has_later_duplicate links i <;>
        simp [List.getElem?_eq_getElem hi, List.getElem?_eq_getElem h0, hd, hi]
    · have : links[i + 1]? = none := List.getElem?_eq_none (by omega)
      cases hli : links[i]? <;> simp [this, hi]
  · intro i d hd
    unfold expected_line at hd
    cases hli : links[i]? with
    | none => simp [hli] at hd
    | some r =>
      cases hls : links[i + 1]? with
      | none => simp [hli, hls] at hd
      | some s =>
        simp only [hli, hls] at hd
        split at hd
        · exact ⟨r, s, rfl, rfl, (Option.some.inj hd).symm⟩
        · cases hd
  · rw [duplicate_loop_eq_filterMap links h]
    exact (List.length_filterMap_le _ _).trans (by simp)

/-- C10 (witness): the shape of the report for the three records of the scenario. -/
theorem duplicate_loop_shape_witness :
    scenario_records ≠ [] ∧ (∀ r ∈ scenario_records, r.target_path ≠ []) ∧
    duplicate_loop scenario_records =
      (List.range (scenario_records.length - 1)).filterMap (expected_line scenario_records) :=
  ⟨by decide, by decide, (duplicate_loop_shape scenario_records (by decide) (by decide)).1⟩

/-! ## The claims on the collector -/

/-- C3.  For a non-empty start path and a tree in which every entry is a regular file,
a link with a non-empty target of at most `PATH_MAX` bytes or a directory, and every
call succeeds, `__find_symlinks` returns the depth-first, listing-order sequence of the
links of the tree: link path `dir_path/name`, target the normalised `readlink` result,
the records of a subdirectory at the position of its entry.  Its length is the number
of links under the root. -/
theorem find_symlinks_complete (dir_path : CStr) (verbose : Bool) (d : Dir)
    (hp : dir_path ≠ []) (h : d.healthy = true) :
    find_symlinks dir_path verbose d = d.symlinks dir_path ∧
    (find_symlinks dir_path verbose d).length = d.count_symlinks := by
  have h1 := collector_healthy.1 d dir_path verbose hp h
  exact ⟨h1, by rw [h1]; exact symlinks_length.1 d dir_path h⟩

/-- C3 (witness): the scenario tree, with links at two depths, gives three records. -/
theorem find_symlinks_complete_witness :
    "root".toList ≠ [] ∧ scenario_tree.healthy = true ∧
    scenario_tree.count_symlinks = 3 ∧
    find_symlinks "root".toList true scenario_tree = scenario_tree.symlinks "root".toList ∧
    (find_symlinks "root".toList true scenario_tree).length = scenario_tree.count_symlinks :=
  ⟨by decide, by decide, by decide,
    find_symlinks_complete "root".toList true scenario_tree (by decide) (by decide)⟩

/-- C4 (evaluation at the failing inputs).  A subdirectory that cannot be opened makes
the recursive call return `NULL`, which the directory branch takes for "no links": the
scan of `root/` goes on and returns the record of `root/a`, and `main` exits 0.  With a
FIFO inside `sub/` the record of `sub/b` is dropped while those of `root/a` and `root/c`
are returned, and `main` prints a duplicate line for them. -/
theorem subdirectory_error_is_swallowed :
    find_symlinks "root/sub".toList false .unreadable = [] ∧
    find_symlinks "root".toList false unreadable_sub_tree =
      [⟨"root/a".toList, "/x".toList⟩] ∧
    main [⟨'d', some "root".toList⟩] (fun _ => unreadable_sub_tree) = .exit 0 [] ∧
    find_symlinks "root".toList false fifo_sub_tree =
      [⟨"root/a".toList, "/x".toList⟩, ⟨"root/c".toList, "/x".toList⟩] ∧
    main [⟨'d', some "root".toList⟩] (fun _ => fifo_sub_tree) =
      .exit 0 [.duplicate ⟨"root/a".toList, "root/c".toList, "/x".toList⟩] := by
  decide

/-! ## The claims on `main` and `__get_args` -/

theorem get_args_loop_start_dir (opts : List Getopt) : ∀ (args : Args) (start_dir : CStr)
    (verbose : Bool), (∀ d, args.start_dir = some d → d ≠ []) →
    get_args_loop args opts = .args start_dir verbose → start_dir ≠ [] := by
  induction opts with
  | nil =>
    intro args start_dir verbose hargs h
    cases hs : args.start_dir with
    | none => simp [get_args_loop, hs] at h
    | some d =>
      simp only [get_args_loop, hs, ArgsResult.args.injEq] at h
      exact h.1 ▸ hargs d hs
  | cons g rest ih =>
    intro args start_dir verbose hargs h
    rw [get_args_loop] at h
    split at h
    · cases hoa : g.optarg with
      | none => simp [hoa] at h
      | some optarg =>
        simp only [hoa] at h
        split at h
        · cases h
        · split at h
          · cases h
          · rename_i hlen _
            refine ih ⟨some optarg, args.verbose⟩ start_dir verbose ?_ h
            intro d hd
            simp only [Option.some.injEq] at hd
            subst hd
            intro h0
            exact hlen (by simp [h0])
    · split at h
      · exact ih ⟨args.start_dir, true⟩ start_dir verbose hargs h
      · cases h

/-- C8 (counterexample).  With `-d root` and a tree that holds the link `a -> /x` and a
FIFO, every call succeeds and the tree has one symbolic link, yet `main` prints
`No links found` and returns 1. -/
theorem exit_one_with_a_link :
    get_args [⟨'d', some "root".toList⟩] = .args "root".toList false ∧
    fifo_root_tree.calls_succeed = true ∧
    fifo_root_tree.count_symlinks = 1 ∧
    main [⟨'d', some "root".toList⟩] (fun _ => fifo_root_tree) =
      .exit 1 [.no_links_found] := by
  decide

/-- C8 (amended).  With arguments that `__get_args` accepts and a healthy tree, `main`
prints `No links found` and returns 1 exactly when the tree has no symbolic link;
otherwise it returns 0 after the duplicate loop, whatever that loop printed.  A
collection of one record prints no duplicate line.  Here `healthy` says that the tree
holds only regular files, links with a non-empty target of at most `PATH_MAX` bytes
and directories, and that every call succeeds. -/
theorem main_exit_code (opts : List Getopt) (fs : CStr → Dir) (start_dir : CStr)
    (verbose : Bool) (hargs : get_args opts = .args start_dir verbose)
    (h : (fs start_dir).healthy = true) :
    main opts fs =
      (if (fs start_dir).count_symlinks = 0 then .exit 1 [.no_links_found]
        else .exit 0
          ((duplicate_loop (find_symlinks start_dir verbose (fs start_dir))).map
            Line.duplicate)) ∧
    ((∃ out, main opts fs = .exit 1 out) ↔ (fs start_dir).count_symlinks = 0) ∧
    ((∃ out, main opts fs = .exit 0 out) ↔ 0 < (fs start_dir).count_symlinks) ∧
    (∀ r, find_symlinks start_dir verbose (fs start_dir) = [r] → main opts fs = .exit 0 []) := by
  have hp : start_dir ≠ [] :=
    get_args_loop_start_dir opts ⟨none, false⟩ start_dir verbose (by simp) hargs
  have hlen : (find_symlinks start_dir verbose (fs start_dir)).length =
      (fs start_dir).count_symlinks := by
    rw [collector_healthy.1 (fs start_dir) start_dir verbose hp h]
    exact symlinks_length.1 (fs start_dir) start_dir h
  have hmain : main opts fs =
      (if (fs start_dir).count_symlinks = 0 then .exit 1 [.no_links_found]
        else .exit 0
          ((duplicate_loop (find_symlinks start_dir verbose (fs start_dir))).map
            Line.duplicate)) := by
    simp only [main, hargs]
    cases hf : find_symlinks start_dir verbose (fs start_dir) with
    | nil =>
      rw [hf] at hlen
      simp [← hlen]
    | cons l ls =>
      rw [hf] at hlen
      simp [← hlen]
  refine ⟨hmain, ?_, ?_, ?_⟩
  · rw [hmain]
    by_cases hc : (fs start_dir).count_symlinks = 0 <;> simp [hc]
  · rw [hmain]
    by_cases hc : (fs start_dir).count_symlinks = 0
    · simp [hc]
    · simp [hc, Nat.pos_of_ne_zero hc]
  · intro r hr
    simp [main, hargs, hr, duplicate_loop]

/-- C8 (witness): the scenario tree has three links, so `main -d root` returns 0. -/
theorem main_exit_code_witness :
    get_args [⟨'d', some "root".toList⟩] = .args "root".toList false ∧
    scenario_tree.healthy = true ∧
    ((∃ out, main [⟨'d', some "root".toList⟩] (fun _ => scenario_tree) = .exit 1 out) ↔
      scenario_tree.count_symlinks = 0) :=
  ⟨by decide, by decide,
    (main_exit_code [⟨'d', some "root".toList⟩] (fun _ => scenario_tree) "root".toList false
      (by decide) (by decide)).2.1⟩

/-- C9 (evaluation at the failing inputs).  When `getopt` reports an unknown option
(`?`), alone or after a valid `-d root`, the `default:` branch releases `args` and
leaves only the `switch`: `__get_args` does not return `NULL` there but goes on to read
the released object, and the run of `main` has no defined result. -/
theorem unknown_flag_does_not_return_null :
    get_args [⟨'?', none⟩] = .use_after_free ∧
    get_args [⟨'d', some "root".toList⟩, ⟨'?', none⟩] = .use_after_free ∧
    get_args [⟨'?', none⟩, ⟨'d', some "root".toList⟩] = .use_after_free ∧
    main [⟨'d', some "root".toList⟩, ⟨'?', none⟩] (fun _ => scenario_tree) = .undefined ∧
    main [⟨'d', some "root".toList⟩, ⟨'?', none⟩] (fun _ => scenario_tree) ≠
      .exit 1 [.usage] := by
  decide

end FindDupeSymlinks
